import Mathlib

/-!
Verification of the k-means clustering program (`src/main.rs`).

The program's `f64` arithmetic is idealized as exact arithmetic: coordinates
are rationals (`ℚ`) and Euclidean distances are real numbers obtained with
`Real.sqrt`.  The engine only ever *compares* distances, and `Real.sqrt` is
strictly monotone on nonnegative numbers, so the assignment loop is embedded
at the level of squared distances (with the initial accumulator
`f64::MAX` squared); the Dunn-index scorer, whose numeric *value* matters,
is embedded at the level of square-rooted distances.
-/

/-- A data row: the `n` identifier column and the `x`, `y`, `z` feature
columns of the input frame. -/
structure Pt where
  n : ℕ
  x : ℚ
  y : ℚ
  z : ℚ
deriving DecidableEq, Inhabited

/-- A centroid: the length-3 vector produced by `init_centers` /
`eval_centers` (one mean per feature column, in column order x, y, z). -/
structure Ctr where
  cx : ℚ
  cy : ℚ
  cz : ℚ
deriving DecidableEq, Inhabited

/-- Squared Euclidean distance from a point to a centroid, the quantity under
the `.sqrt()` in the distance expressions of `KMeans::eval` (lines 144-147):
`(x - c[0])^2 + (y - c[1])^2 + (z - c[2])^2`. -/
def dist2C (p : Pt) (c : Ctr) : ℚ :=
  (p.x - c.cx) * (p.x - c.cx) + (p.y - c.cy) * (p.y - c.cy) +
    (p.z - c.cz) * (p.z - c.cz)

/-- Squared Euclidean distance between two points, the quantity summed over
the feature columns in `dann_index` (lines 345-350 and 374-379). -/
def dist2 (p q : Pt) : ℚ :=
  (p.x - q.x) * (p.x - q.x) + (p.y - q.y) * (p.y - q.y) +
    (p.z - q.z) * (p.z - q.z)

/-- The value of `f64::MAX`, which is exactly `(2^53 - 1) * 2^971`. -/
def fMAXq : ℚ := ((2 ^ 53 - 1) * 2 ^ 971 : ℕ)

/-- `f64::MAX` squared: the squared-distance image of the initial
`min_dist = f64::MAX` accumulator of the assignment loop (line 184). -/
def fMAX2 : ℚ := fMAXq * fMAXq

/-- The assignment loop of `KMeans::eval` (lines 183-197): scan the per-centroid
distances in index order keeping `(min_dist, min_dist_idx)`, updating only on a
strictly smaller distance.  `j` is the index of the head of `l`, `m` the
current minimum (squared), `best` the current best index. -/
def argminAux (p : Pt) : List Ctr → ℕ → ℚ → ℕ → ℕ
  | [], _, _, best => best
  | c :: rest, j, m, best =>
      if dist2C p c < m then argminAux p rest (j + 1) (dist2C p c) j
      else argminAux p rest (j + 1) m best

/-- The cluster tag (`min_dist_idx`) assigned to point `p` by one iteration of
`KMeans::eval`, starting from `min_dist = f64::MAX` and `min_dist_idx = 0`. -/
def tagOf (p : Pt) (centers : List Ctr) : ℕ :=
  argminAux p centers 0 fMAX2 0

/-- The list of distinct values of `l` in order of first occurrence: the group
keys materialized by `partition_by` (line 209), one group per occurring
cluster tag. -/
def dedupFirst : List ℕ → List ℕ
  | [] => []
  | a :: l => a :: dedupFirst (l.filter (fun b => decide (b ≠ a)))
termination_by l => l.length
decreasing_by
  simp only [List.length_cons]
  exact Nat.lt_succ_of_le (List.length_filter_le _ _)

/-- One partition step of `KMeans::eval` (lines 181-213): tag every point with
its nearest-centroid index, then group the rows by tag.  Rows keep the input
order inside each group; one group per occurring tag, no empty groups.  The
groups are listed in first-occurrence order of the tags (the source's
`partition_by` leaves the group order unspecified; every claim below is
insensitive to it). -/
def partitionStep (pts : List Pt) (centers : List Ctr) : List (List Pt) :=
  (dedupFirst (pts.map (fun p => tagOf p centers))).map
    (fun t => pts.filter (fun p => decide (tagOf p centers = t)))

/-- `KMeans::eval_centers` (lines 265-280): for every cluster, the new centroid
is the per-column `sum / len` over the cluster's rows (columns x, y, z). -/
def eval_centers (cls : List (List Pt)) : List Ctr :=
  cls.map (fun c =>
    ⟨(c.map Pt.x).sum / (c.length : ℚ),
     (c.map Pt.y).sum / (c.length : ℚ),
     (c.map Pt.z).sum / (c.length : ℚ)⟩)

/-- The convergence counter of `KMeans::eval` (lines 236-248): for every
current cluster, count how many clusters of the previous iteration it equals,
and sum the counts over all ordered pairs. -/
def countMatches (cur last : List (List Pt)) : ℕ :=
  (cur.map (fun c => (last.filter (fun d => decide (d = c))).length)).sum

/-- Outcome of one turn of the `loop` in `KMeans::eval`: either the run
returns the current clusters, or it continues with the updated centroids and
the current clusters as the new `clusters_last`. -/
inductive StepRes where
  | done (cls : List (List Pt))
  | next (centers : List Ctr) (cls : List (List Pt))
deriving DecidableEq

/-- One turn of the `loop` of `KMeans::eval` (lines 138-262): partition,
update centroids, then the three exit checks in source order — centroid count
at most 1 (line 228), cluster-count change (line 232), full pair-counting
equality (lines 236-252), first-cluster equality (lines 254-261). -/
def evalStep (pts : List Pt) (centers : List Ctr) (last : List (List Pt)) :
    StepRes :=
  let cl := partitionStep pts centers
  let cent := eval_centers cl
  if cent.length ≤ 1 then .done cl
  else if cl.length ≠ last.length then .next cent cl
  else if countMatches cl last = cl.length then .done cl
  else if cl.head? = last.head? then .done cl
  else .next cent cl

/-- The `loop` of `KMeans::eval`, with explicit fuel: the source loop has no
iteration cap, so a run that never satisfies an exit check is `none`. -/
def evalLoop (pts : List Pt) : ℕ → List Ctr → List (List Pt) →
    Option (List (List Pt))
  | 0, _, _ => none
  | fuel + 1, centers, last =>
      match evalStep pts centers last with
      | .done cl => some cl
      | .next cent cl => evalLoop pts fuel cent cl

/-- `KMeans::eval` (lines 132-263): the loop starts from
`self.clusters = vec![self.df]` (line 134) and the centroids produced by
initialization. -/
def eval (pts : List Pt) (fuel : ℕ) (centers : List Ctr) :
    Option (List (List Pt)) :=
  evalLoop pts fuel centers [pts]

/-- The `Some(center_ids)` branch of `KMeans::init_centers` (lines 289-290 and
303-319): keep the rows whose id is in the given list (`is_in` filter, row
order of the frame, each matching row once) and copy their feature columns.
`n_clusters` is not read on this branch. -/
def init_centers_explicit (pts : List Pt) (ids : List ℕ) : List (List ℚ) :=
  (pts.filter (fun p => decide (p.n ∈ ids))).map (fun p => [p.x, p.y, p.z])

/-- The rejection-sampling loop of the `None` branch of
`KMeans::init_centers` (lines 292-299): while the id set has fewer than
`n_clusters` elements, draw the next id from the generator and insert it.
`rng i` models the `i`-th call of `rng.gen_range(0..height)`; fuel counts
loop turns, `none` meaning the loop has not finished within the fuel. -/
def init_random_loop (rng : ℕ → ℕ) (n_clusters : ℕ) :
    ℕ → ℕ → Finset ℕ → Option (Finset ℕ)
  | 0, _, _ => none
  | fuel + 1, i, s =>
      if n_clusters ≤ s.card then some s
      else init_random_loop rng n_clusters fuel (i + 1) (insert (rng i) s)

/-- Euclidean point-to-centroid distance (the `.sqrt()` of line 147). -/
noncomputable def distRC (p : Pt) (c : Ctr) : ℝ :=
  Real.sqrt ((dist2C p c : ℚ) : ℝ)

/-- Euclidean point-to-point distance (the `.sqrt()` of lines 350 and 379). -/
noncomputable def distR (p q : Pt) : ℝ :=
  Real.sqrt ((dist2 p q : ℚ) : ℝ)

/-- The squared distances visited by the intra-cluster double loop of
`dann_index` (lines 339-356): for every cluster, every ordered pair of
distinct row indices. -/
def intraDists2 (cls : List (List Pt)) : List ℚ :=
  cls.flatMap (fun c =>
    (List.range c.length).flatMap (fun j =>
      (List.range c.length).flatMap (fun k =>
        if j = k then [] else [dist2 (c.getD j default) (c.getD k default)])))

/-- The squared distances visited by the inter-cluster loops of `dann_index`
(lines 358-386): for every ordered pair of distinct cluster indices, every
row of the first paired with every row of the second. -/
def interDists2 (cls : List (List Pt)) : List ℚ :=
  (List.range cls.length).flatMap (fun i =>
    (List.range cls.length).flatMap (fun j =>
      if i = j then []
      else (cls.getD i []).flatMap (fun p => (cls.getD j []).map (fun q => dist2 p q))))

/-- The Euclidean distances fed to the `max` accumulator of `dann_index`. -/
noncomputable def intraDistsR (cls : List (List Pt)) : List ℝ :=
  (intraDists2 cls).map (fun s => Real.sqrt ((s : ℚ) : ℝ))

/-- The Euclidean distances fed to the `min` accumulator of `dann_index`. -/
noncomputable def interDistsR (cls : List (List Pt)) : List ℝ :=
  (interDists2 cls).map (fun s => Real.sqrt ((s : ℚ) : ℝ))

/-- The final value of the `min` accumulator of `dann_index`: fold of the
inter-cluster distances, updating on strictly smaller, from `f64::MAX`. -/
noncomputable def min_intercluster (cls : List (List Pt)) : ℝ :=
  (interDistsR cls).foldl (fun a d => if d < a then d else a) ((fMAXq : ℚ) : ℝ)

/-- The final value of the `max` accumulator of `dann_index`: fold of the
intra-cluster distances, updating on strictly larger, from
`f64::MIN = -f64::MAX`. -/
noncomputable def max_intracluster (cls : List (List Pt)) : ℝ :=
  (intraDistsR cls).foldl (fun a d => if a < d then d else a) (-((fMAXq : ℚ) : ℝ))

/-- `dann_index` (lines 323-390): the unguarded quotient `min / max` of the
two accumulators (line 389). -/
noncomputable def dann_index (cls : List (List Pt)) : ℝ :=
  min_intercluster cls / max_intracluster cls

/-- `d` is the Euclidean distance of some pair of points lying in clusters
with distinct positional indices (spec: "any point in cluster i and any point
in cluster j, over all unordered pairs i ≠ j"). -/
def interPairDist (cls : List (List Pt)) (d : ℝ) : Prop :=
  ∃ i j, i < cls.length ∧ j < cls.length ∧ i ≠ j ∧
    ∃ p q, p ∈ cls.getD i [] ∧ q ∈ cls.getD j [] ∧ d = distR p q

/-- `d` is the Euclidean distance of two distinct members (distinct row
positions) of one same cluster (spec: "any two distinct points within the
same cluster, maximized over all clusters"). -/
def intraPairDist (cls : List (List Pt)) (d : ℝ) : Prop :=
  ∃ c, c ∈ cls ∧ ∃ j k, j < c.length ∧ k < c.length ∧ j ≠ k ∧
    d = distR (c.getD j default) (c.getD k default)

/-! ### Concrete example data -/

/-- Example row (0, 0, 0, 0): the spec's four-point scenario (section 8). -/
def pA : Pt := ⟨0, 0, 0, 0⟩

/-- Example row (1, 0, 0, 1). -/
def pB : Pt := ⟨1, 0, 0, 1⟩

/-- Example row (2, 10, 10, 10). -/
def pC : Pt := ⟨2, 10, 10, 10⟩

/-- Example row (3, 10, 10, 11). -/
def pD : Pt := ⟨3, 10, 10, 11⟩

/-- The four-point example input. -/
def samplePts : List Pt := [pA, pB, pC, pD]

/-- Centroids seeded from rows 0 and 2 of `samplePts`. -/
def sampleCenters : List Ctr := [⟨0, 0, 0⟩, ⟨10, 10, 10⟩]

/-- The centroids after one iteration on `samplePts`. -/
def sampleCenters2 : List Ctr := eval_centers (partitionStep samplePts sampleCenters)

/-- Centroids with an exact distance tie between indices 0 and 1. -/
def assignCenters : List Ctr := [⟨1, 0, 0⟩, ⟨1, 0, 0⟩, ⟨0, 0, 0⟩]

/-- A degenerate partition: two clusters, each holding two identical rows,
so every intra-cluster distance is zero. -/
def clsDeg : List (List Pt) :=
  [[⟨0, 0, 0, 0⟩, ⟨1, 0, 0, 0⟩], [⟨2, 1, 0, 0⟩, ⟨3, 1, 0, 0⟩]]

/-- A well-separated two-cluster partition with rational distances. -/
def clsGood : List (List Pt) :=
  [[⟨0, 0, 0, 0⟩, ⟨1, 3, 4, 0⟩], [⟨2, 10, 0, 0⟩, ⟨3, 13, 4, 0⟩]]

/-- A previous-iteration cluster list agreeing with the partition of
`samplePts` only on the first cluster. -/
def lastAlt : List (List Pt) := [[pA, pB], [pD]]

/-! ### Basic facts about distances and the `f64` extreme constants -/

lemma dist2_nonneg (p q : Pt) : 0 ≤ dist2 p q := by
  unfold dist2
  have hx := mul_self_nonneg (p.x - q.x)
  have hy := mul_self_nonneg (p.y - q.y)
  have hz := mul_self_nonneg (p.z - q.z)
  linarith

lemma dist2C_nonneg (p : Pt) (c : Ctr) : 0 ≤ dist2C p c := by
  unfold dist2C
  have hx := mul_self_nonneg (p.x - c.cx)
  have hy := mul_self_nonneg (p.y - c.cy)
  have hz := mul_self_nonneg (p.z - c.cz)
  linarith

lemma fMAXq_pos : 0 < fMAXq := by
  unfold fMAXq
  have : 0 < ((2 ^ 53 - 1) * 2 ^ 971 : ℕ) := by positivity
  exact_mod_cast this

/-! ### The min/max accumulator folds of `dann_index` -/

lemma foldl_min_le_init (L : List ℝ) (a : ℝ) :
    L.foldl (fun a d => if d < a then d else a) a ≤ a := by
  induction L generalizing a with
  | nil => simp
  | cons d0 L ih =>
      simp only [List.foldl_cons]
      refine le_trans (ih _) ?_
      rcases lt_or_le d0 a with h | h
      · rw [if_pos h]; exact le_of_lt h
      · rw [if_neg (not_lt.mpr h)]

lemma foldl_min_le_mem (L : List ℝ) (a d : ℝ) (hd : d ∈ L) :
    L.foldl (fun a d => if d < a then d else a) a ≤ d := by
  induction L generalizing a with
  | nil => exact absurd hd (List.not_mem_nil d)
  | cons d0 L ih =>
      simp only [List.foldl_cons]
      rcases List.mem_cons.mp hd with h | h
      · subst h
        refine le_trans (foldl_min_le_init _ _) ?_
        rcases lt_or_le d a with h | h
        · rw [if_pos h]
        · rw [if_neg (not_lt.mpr h)]; exact h
      · exact ih _ h

lemma foldl_min_eq_or_mem (L : List ℝ) (a : ℝ) :
    L.foldl (fun a d => if d < a then d else a) a = a ∨
      L.foldl (fun a d => if d < a then d else a) a ∈ L := by
  induction L generalizing a with
  | nil => simp
  | cons d0 L ih =>
      simp only [List.foldl_cons]
      rcases ih (if d0 < a then d0 else a) with h | h
      · rw [h]
        split
        · exact Or.inr (List.mem_cons_self _ _)
        · exact Or.inl rfl
      · exact Or.inr (List.mem_cons_of_mem _ h)

lemma foldl_max_init_le (L : List ℝ) (a : ℝ) :
    a ≤ L.foldl (fun a d => if a < d then d else a) a := by
  induction L generalizing a with
  | nil => simp
  | cons d0 L ih =>
      simp only [List.foldl_cons]
      refine le_trans ?_ (ih _)
      rcases lt_or_le a d0 with h | h
      · rw [if_pos h]; exact le_of_lt h
      · rw [if_neg (not_lt.mpr h)]

lemma foldl_max_mem_le (L : List ℝ) (a d : ℝ) (hd : d ∈ L) :
    d ≤ L.foldl (fun a d => if a < d then d else a) a := by
  induction L generalizing a with
  | nil => exact absurd hd (List.not_mem_nil d)
  | cons d0 L ih =>
      simp only [List.foldl_cons]
      rcases List.mem_cons.mp hd with h | h
      · subst h
        refine le_trans ?_ (foldl_max_init_le _ _)
        rcases lt_or_le a d with h | h
        · rw [if_pos h]
        · rw [if_neg (not_lt.mpr h)]; exact h
      · exact ih _ h

lemma foldl_max_eq_or_mem (L : List ℝ) (a : ℝ) :
    L.foldl (fun a d => if a < d then d else a) a = a ∨
      L.foldl (fun a d => if a < d then d else a) a ∈ L := by
  induction L generalizing a with
  | nil => simp
  | cons d0 L ih =>
      simp only [List.foldl_cons]
      rcases ih (if a < d0 then d0 else a) with h | h
      · rw [h]
        split
        · exact Or.inr (List.mem_cons_self _ _)
        · exact Or.inl rfl
      · exact Or.inr (List.mem_cons_of_mem _ h)

/-! ### The assignment loop -/

lemma argminAux_of_forall (p : Pt) :
    ∀ (l : List Ctr) (j0 : ℕ) (m : ℚ) (best : ℕ),
      (∀ c ∈ l, ¬ dist2C p c < m) → argminAux p l j0 m best = best := by
  intro l
  induction l with
  | nil => intro _ _ _ _; rfl
  | cons c0 rest ih =>
      intro j0 m best h
      have h0 : ¬ dist2C p c0 < m := h c0 (List.mem_cons_self _ _)
      simp only [argminAux, if_neg h0]
      exact ih _ _ _ (fun c hc => h c (List.mem_cons_of_mem _ hc))

lemma argminAux_lt_of_lt (p : Pt) :
    ∀ (l : List Ctr) (j0 : ℕ) (m : ℚ) (best B : ℕ),
      best < B → j0 + l.length ≤ B → argminAux p l j0 m best < B := by
  intro l
  induction l with
  | nil => intro _ _ _ _ hb _; exact hb
  | cons c0 rest ih =>
      intro j0 m best B hb hlen
      simp only [List.length_cons] at hlen
      simp only [argminAux]
      split
      · exact ih (j0 + 1) _ j0 B (by omega) (by omega)
      · exact ih (j0 + 1) _ best B hb (by omega)

lemma argminAux_first_argmin (p : Pt) :
    ∀ (l : List Ctr) (j0 : ℕ) (m : ℚ) (best : ℕ),
      (∃ c ∈ l, dist2C p c < m) →
      ∃ i, i < l.length ∧ argminAux p l j0 m best = j0 + i ∧
        dist2C p (l.getD i default) < m ∧
        (∀ i2, i2 < l.length →
          dist2C p (l.getD i default) ≤ dist2C p (l.getD i2 default)) ∧
        (∀ i2, i2 < i →
          dist2C p (l.getD i default) < dist2C p (l.getD i2 default)) := by
  intro l
  induction l with
  | nil => rintro _ _ _ ⟨c, hc, _⟩; exact absurd hc (List.not_mem_nil c)
  | cons c0 rest ih =>
      intro j0 m best hex
      by_cases h0 : dist2C p c0 < m
      · simp only [argminAux, if_pos h0]
        by_cases hrest : ∃ c ∈ rest, dist2C p c < dist2C p c0
        · obtain ⟨i1, hi1, heq, hlt, hmin, hfirst⟩ :=
            ih (j0 + 1) (dist2C p c0) j0 hrest
          refine ⟨i1 + 1, by simpa using Nat.succ_lt_succ hi1, ?_, ?_, ?_, ?_⟩
          · rw [heq]; omega
          · rw [List.getD_cons_succ]; exact lt_trans hlt h0
          · intro i2 hi2
            rw [List.getD_cons_succ]
            cases i2 with
            | zero => rw [List.getD_cons_zero]; exact le_of_lt hlt
            | succ k =>
                rw [List.getD_cons_succ]
                exact hmin k (by simpa using Nat.lt_of_succ_lt_succ hi2)
          · intro i2 hi2
            rw [List.getD_cons_succ]
            cases i2 with
            | zero => rw [List.getD_cons_zero]; exact hlt
            | succ k =>
                rw [List.getD_cons_succ]
                exact hfirst k (Nat.lt_of_succ_lt_succ hi2)
        · push_neg at hrest
          have hstay := argminAux_of_forall p rest (j0 + 1) (dist2C p c0) j0
            (fun c hc => not_lt.mpr (hrest c hc))
          refine ⟨0, by simp, by simpa using hstay, by simpa using h0, ?_, ?_⟩
          · intro i2 hi2
            rw [List.getD_cons_zero]
            cases i2 with
            | zero => rw [List.getD_cons_zero]
            | succ k =>
                rw [List.getD_cons_succ]
                have hk : k < rest.length := by simpa using Nat.lt_of_succ_lt_succ hi2
                have : rest.getD k default ∈ rest := by
                  rw [List.getD_eq_getElem rest default hk]
                  exact List.getElem_mem hk
                exact hrest _ this
          · intro i2 hi2
            exact absurd hi2 (Nat.not_lt_zero i2)
      · have hrest : ∃ c ∈ rest, dist2C p c < m := by
          obtain ⟨c, hc, hlt⟩ := hex
          rcases List.mem_cons.mp hc with h | h
          · exact absurd (h ▸ hlt) h0
          · exact ⟨c, h, hlt⟩
        simp only [argminAux, if_neg h0]
        obtain ⟨i1, hi1, heq, hlt, hmin, hfirst⟩ := ih (j0 + 1) m best hrest
        have hm0 : m ≤ dist2C p c0 := not_lt.mp h0
        refine ⟨i1 + 1, by simpa using Nat.succ_lt_succ hi1, ?_, ?_, ?_, ?_⟩
        · rw [heq]; omega
        · rw [List.getD_cons_succ]; exact hlt
        · intro i2 hi2
          rw [List.getD_cons_succ]
          cases i2 with
          | zero => rw [List.getD_cons_zero]; exact le_of_lt (lt_of_lt_of_le hlt hm0)
          | succ k =>
              rw [List.getD_cons_succ]
              exact hmin k (by simpa using Nat.lt_of_succ_lt_succ hi2)
        · intro i2 hi2
          rw [List.getD_cons_succ]
          cases i2 with
          | zero => rw [List.getD_cons_zero]; exact lt_of_lt_of_le hlt hm0
          | succ k =>
              rw [List.getD_cons_succ]
              exact hfirst k (Nat.lt_of_succ_lt_succ hi2)

lemma tagOf_lt_length (p : Pt) (centers : List Ctr) (h : centers ≠ []) :
    tagOf p centers < centers.length := by
  unfold tagOf
  have hlen : 0 < centers.length := List.length_pos.mpr h
  exact argminAux_lt_of_lt p centers 0 fMAX2 0 centers.length hlen (by omega)

/-! ### The grouping of `partition_by` -/

lemma mem_dedupFirst (l : List ℕ) (b : ℕ) : b ∈ dedupFirst l ↔ b ∈ l := by
  induction l using dedupFirst.induct with
  | case1 => simp [dedupFirst]
  | case2 a l ih =>
      rw [dedupFirst]
      constructor
      · intro h
        rcases List.mem_cons.mp h with h | h
        · exact h ▸ List.mem_cons_self _ _
        · exact List.mem_cons_of_mem _ (List.mem_of_mem_filter (ih.mp h))
      · intro h
        rcases List.mem_cons.mp h with h | h
        · exact h ▸ List.mem_cons_self _ _
        · by_cases hba : b = a
          · exact hba ▸ List.mem_cons_self _ _
          · refine List.mem_cons_of_mem _ (ih.mpr ?_)
            exact List.mem_filter.mpr ⟨h, by simpa using hba⟩

lemma dedupFirst_nodup (l : List ℕ) : (dedupFirst l).Nodup := by
  induction l using dedupFirst.induct with
  | case1 => simp [dedupFirst]
  | case2 a l ih =>
      rw [dedupFirst]
      refine List.nodup_cons.mpr ⟨?_, ih⟩
      intro hmem
      have h := List.mem_filter.mp ((mem_dedupFirst _ _).mp hmem)
      simp at h

lemma dedupFirst_length_le (l : List ℕ) (N : ℕ) (h : ∀ x ∈ l, x < N) :
    (dedupFirst l).length ≤ N := by
  have hsub : (dedupFirst l).toFinset ⊆ Finset.range N := by
    intro x hx
    rw [List.mem_toFinset] at hx
    exact Finset.mem_range.mpr (h x ((mem_dedupFirst _ _).mp hx))
  have hcard := Finset.card_le_card hsub
  rwa [List.toFinset_card_of_nodup (dedupFirst_nodup l), Finset.card_range]
    at hcard

lemma mem_partitionStep (pts : List Pt) (centers : List Ctr)
    (c : List Pt) :
    c ∈ partitionStep pts centers ↔
      ∃ t, t ∈ dedupFirst (pts.map (fun p => tagOf p centers)) ∧
        c = pts.filter (fun p => decide (tagOf p centers = t)) := by
  simp only [partitionStep, List.mem_map, eq_comm]

lemma partitionStep_ne_nil (pts : List Pt) (centers : List Ctr) :
    ∀ c ∈ partitionStep pts centers, c ≠ [] := by
  intro c hc
  obtain ⟨t, ht, rfl⟩ := (mem_partitionStep pts centers c).mp hc
  obtain ⟨p, hp, hpt⟩ := List.mem_map.mp ((mem_dedupFirst _ _).mp ht)
  intro hnil
  have hmem : p ∈ pts.filter (fun p => decide (tagOf p centers = t)) :=
    List.mem_filter.mpr ⟨hp, by simp [hpt]⟩
  rw [hnil] at hmem
  exact List.not_mem_nil p hmem

lemma partitionStep_nodup (pts : List Pt) (centers : List Ctr) :
    (partitionStep pts centers).Nodup := by
  unfold partitionStep
  refine List.Nodup.map_on ?_ (dedupFirst_nodup _)
  intro t1 ht1 t2 _ heq
  obtain ⟨p, hp, hpt⟩ := List.mem_map.mp ((mem_dedupFirst _ _).mp ht1)
  have hmem : p ∈ pts.filter (fun p => decide (tagOf p centers = t1)) :=
    List.mem_filter.mpr ⟨hp, by simp [hpt]⟩
  rw [heq] at hmem
  have h2 := (List.mem_filter.mp hmem).2
  simp only [decide_eq_true_eq] at h2
  rw [← hpt, h2]

lemma partitionStep_length_le (pts : List Pt) (centers : List Ctr)
    (h : centers ≠ []) :
    (partitionStep pts centers).length ≤ centers.length := by
  rw [partitionStep, List.length_map]
  refine dedupFirst_length_le _ _ ?_
  intro x hx
  obtain ⟨p, _, rfl⟩ := List.mem_map.mp hx
  exact tagOf_lt_length p centers h

lemma partitionStep_exists_unique (pts : List Pt) (centers : List Ctr)
    (p : Pt) (hp : p ∈ pts) :
    ∃! c, c ∈ partitionStep pts centers ∧ p ∈ c := by
  refine ⟨pts.filter (fun q => decide (tagOf q centers = tagOf p centers)),
    ⟨?_, ?_⟩, ?_⟩
  · refine (mem_partitionStep _ _ _).mpr ⟨tagOf p centers, ?_, rfl⟩
    exact (mem_dedupFirst _ _).mpr (List.mem_map.mpr ⟨p, hp, rfl⟩)
  · exact List.mem_filter.mpr ⟨hp, by simp⟩
  · rintro c' ⟨hc', hpc'⟩
    obtain ⟨t, _, rfl⟩ := (mem_partitionStep _ _ _).mp hc'
    have h2 := (List.mem_filter.mp hpc').2
    simp only [decide_eq_true_eq] at h2
    rw [h2]

lemma join_filter_perm {α β : Type} [DecidableEq α] [DecidableEq β]
    (f : α → β) :
    ∀ (ts : List β) (l : List α), ts.Nodup → (∀ x ∈ l, f x ∈ ts) →
      ((ts.map (fun t => l.filter (fun x => decide (f x = t)))).flatten).Perm
        l := by
  intro ts
  induction ts with
  | nil =>
      intro l _ hmem
      cases l with
      | nil => simp
      | cons x l =>
          exact absurd (hmem x (List.mem_cons_self _ _)) (List.not_mem_nil _)
  | cons t ts ih =>
      intro l hnd hmem
      obtain ⟨hts, hnd2⟩ := List.nodup_cons.mp hnd
      simp only [List.map_cons, List.flatten_cons]
      have hstep : ts.map (fun t2 => l.filter (fun x => decide (f x = t2))) =
          ts.map (fun t2 => (l.filter (fun x => decide (f x ≠ t))).filter
            (fun x => decide (f x = t2))) := by
        refine List.map_congr_left ?_
        intro t2 ht2
        rw [List.filter_filter]
        refine (List.filter_congr ?_).symm
        intro x _
        by_cases hfx : f x = t2
        · have hne : ¬ t2 = t := fun h => hts (h ▸ ht2)
          simp [hfx, hne]
        · simp [hfx]
      rw [hstep]
      have hsubmem : ∀ x ∈ l.filter (fun x => decide (f x ≠ t)), f x ∈ ts := by
        intro x hx
        obtain ⟨hxl, hxt⟩ := List.mem_filter.mp hx
        simp only [decide_eq_true_eq] at hxt
        rcases List.mem_cons.mp (hmem x hxl) with h | h
        · exact absurd h hxt
        · exact h
      have ihl := ih (l.filter (fun x => decide (f x ≠ t))) hnd2 hsubmem
      have hfun : (fun x => !decide (f x = t)) = (fun x => decide (f x ≠ t)) := by
        funext x
        simp [decide_not]
      have hperm := List.filter_append_perm (fun x => decide (f x = t)) l
      rw [hfun] at hperm
      exact (ihl.append_left _).trans hperm

lemma partitionStep_join_perm (pts : List Pt) (centers : List Ctr) :
    ((partitionStep pts centers).flatten).Perm pts := by
  unfold partitionStep
  refine join_filter_perm (fun p => tagOf p centers) _ pts
    (dedupFirst_nodup _) ?_
  intro p hp
  exact (mem_dedupFirst _ _).mpr (List.mem_map.mpr ⟨p, hp, rfl⟩)

/-! ### The pair-counting convergence check -/

lemma filter_eq_length_of_nodup {α : Type} [DecidableEq α] (l : List α)
    (hnd : l.Nodup) (c : α) :
    (l.filter (fun d => decide (d = c))).length = if c ∈ l then 1 else 0 := by
  induction l with
  | nil => simp
  | cons d l ih =>
      obtain ⟨hd, hnd2⟩ := List.nodup_cons.mp hnd
      rw [List.filter_cons]
      by_cases hdc : d = c
      · subst hdc
        have hfil : l.filter (fun x => decide (x = d)) = [] := by
          refine List.filter_eq_nil_iff.mpr ?_
          intro a ha
          simp only [decide_eq_true_eq]
          exact fun h => hd (h ▸ ha)
        simp [hfil]
      · have hcd : ¬ c = d := fun h => hdc h.symm
        simp [hdc, hcd, ih hnd2]

lemma countMatches_eq (cur last : List (List Pt)) (hnd : last.Nodup) :
    countMatches cur last =
      (cur.filter (fun c => decide (c ∈ last))).length := by
  induction cur with
  | nil => simp [countMatches]
  | cons c cur ih =>
      simp only [countMatches, List.map_cons, List.sum_cons] at ih ⊢
      rw [filter_eq_length_of_nodup last hnd c, List.filter_cons]
      by_cases hc : c ∈ last
      · simp [hc, ih]
        omega
      · simp [hc, ih]

lemma countMatches_eq_length_iff (cur last : List (List Pt))
    (hndc : cur.Nodup) (hndl : last.Nodup) (hlen : cur.length = last.length) :
    countMatches cur last = cur.length ↔ ∀ c, c ∈ cur ↔ c ∈ last := by
  rw [countMatches_eq cur last hndl]
  constructor
  · intro h
    have hfil : cur.filter (fun c => decide (c ∈ last)) = cur :=
      (List.filter_sublist _).eq_of_length h
    have hsub : ∀ c ∈ cur, c ∈ last := by
      intro c hc
      rw [← hfil] at hc
      simpa using (List.mem_filter.mp hc).2
    have hfin : cur.toFinset = last.toFinset := by
      refine Finset.eq_of_subset_of_card_le ?_ ?_
      · intro c hc
        exact List.mem_toFinset.mpr (hsub c (List.mem_toFinset.mp hc))
      · rw [List.toFinset_card_of_nodup hndc,
          List.toFinset_card_of_nodup hndl, hlen]
    intro c
    have hx := Finset.ext_iff.mp hfin c
    simpa using hx
  · intro h
    have hfil : cur.filter (fun c => decide (c ∈ last)) = cur := by
      refine List.filter_eq_self.mpr ?_
      intro c hc
      simpa using (h c).mp hc
    rw [hfil]

/-! ### The engine loop -/

lemma evalStep_done_eq (pts : List Pt) (centers : List Ctr)
    (last : List (List Pt)) (cl : List (List Pt))
    (h : evalStep pts centers last = StepRes.done cl) :
    cl = partitionStep pts centers := by
  simp only [evalStep] at h
  split_ifs at h <;> cases h <;> rfl

lemma evalLoop_some_eq_partitionStep (pts : List Pt) :
    ∀ (fuel : ℕ) (centers : List Ctr) (last P : List (List Pt)),
      evalLoop pts fuel centers last = some P →
      ∃ cs, P = partitionStep pts cs := by
  intro fuel
  induction fuel with
  | zero =>
      intro centers last P h
      exact absurd h (by simp [evalLoop])
  | succ fuel ih =>
      intro centers last P h
      rw [evalLoop] at h
      cases hstep : evalStep pts centers last with
      | done cl =>
          rw [hstep] at h
          injection h with h
          exact ⟨centers, h ▸ evalStep_done_eq pts centers last cl hstep⟩
      | next cent cl =>
          rw [hstep] at h
          exact ih cent cl P h

/-! ### Transfer of comparisons through `Real.sqrt` -/

lemma distRC_le_distRC {p : Pt} {a b : Ctr}
    (h : dist2C p a ≤ dist2C p b) : distRC p a ≤ distRC p b := by
  unfold distRC
  exact Real.sqrt_le_sqrt (by exact_mod_cast h)

lemma distRC_lt_distRC {p : Pt} {a b : Ctr}
    (h : dist2C p a < dist2C p b) : distRC p a < distRC p b := by
  unfold distRC
  refine Real.sqrt_lt_sqrt ?_ ?_
  · exact_mod_cast dist2C_nonneg p a
  · exact_mod_cast h

/-! ### Characterization of the `dann_index` accumulators -/

lemma mem_interDists2 (cls : List (List Pt)) (s : ℚ) :
    s ∈ interDists2 cls ↔ ∃ i j, i < cls.length ∧ j < cls.length ∧ i ≠ j ∧
      ∃ p q, p ∈ cls.getD i [] ∧ q ∈ cls.getD j [] ∧ s = dist2 p q := by
  simp only [interDists2, List.mem_flatMap, List.mem_range,
    List.mem_ite_nil_left, List.mem_map]
  constructor
  · rintro ⟨i, hi, j, hj, hij, p, hp, q, hq, rfl⟩
    exact ⟨i, j, hi, hj, hij, p, q, hp, hq, rfl⟩
  · rintro ⟨i, j, hi, hj, hij, p, q, hp, hq, rfl⟩
    exact ⟨i, hi, j, hj, hij, p, hp, q, hq, rfl⟩

lemma mem_intraDists2 (cls : List (List Pt)) (s : ℚ) :
    s ∈ intraDists2 cls ↔ ∃ c, c ∈ cls ∧ ∃ j k, j < c.length ∧ k < c.length ∧
      j ≠ k ∧ s = dist2 (c.getD j default) (c.getD k default) := by
  simp only [intraDists2, List.mem_flatMap, List.mem_range,
    List.mem_ite_nil_left, List.mem_singleton]
  constructor
  · rintro ⟨c, hc, j, hj, k, hk, hjk, rfl⟩
    exact ⟨c, hc, j, k, hj, hk, hjk, rfl⟩
  · rintro ⟨c, hc, j, k, hj, hk, hjk, rfl⟩
    exact ⟨c, hc, j, hj, k, hk, hjk, rfl⟩

lemma mem_interDistsR (cls : List (List Pt)) (d : ℝ) :
    d ∈ interDistsR cls ↔ interPairDist cls d := by
  unfold interDistsR interPairDist
  simp only [List.mem_map]
  constructor
  · rintro ⟨s, hs, rfl⟩
    obtain ⟨i, j, hi, hj, hij, p, q, hp, hq, rfl⟩ := (mem_interDists2 _ _).mp hs
    exact ⟨i, j, hi, hj, hij, p, q, hp, hq, rfl⟩
  · rintro ⟨i, j, hi, hj, hij, p, q, hp, hq, rfl⟩
    exact ⟨dist2 p q,
      (mem_interDists2 _ _).mpr ⟨i, j, hi, hj, hij, p, q, hp, hq, rfl⟩, rfl⟩

lemma mem_intraDistsR (cls : List (List Pt)) (d : ℝ) :
    d ∈ intraDistsR cls ↔ intraPairDist cls d := by
  unfold intraDistsR intraPairDist
  simp only [List.mem_map]
  constructor
  · rintro ⟨s, hs, rfl⟩
    obtain ⟨c, hc, j, k, hj, hk, hjk, rfl⟩ := (mem_intraDists2 _ _).mp hs
    exact ⟨c, hc, j, k, hj, hk, hjk, rfl⟩
  · rintro ⟨c, hc, j, k, hj, hk, hjk, rfl⟩
    exact ⟨dist2 (c.getD j default) (c.getD k default),
      (mem_intraDists2 _ _).mpr ⟨c, hc, j, k, hj, hk, hjk, rfl⟩, rfl⟩

lemma interDists2_ne_nil (cls : List (List Pt)) (h2 : 2 ≤ cls.length)
    (hne : ∀ c ∈ cls, c ≠ []) : interDists2 cls ≠ [] := by
  have h0 : 0 < cls.length := by omega
  have h1 : 1 < cls.length := by omega
  have hc0 : cls.getD 0 [] ∈ cls := by
    rw [List.getD_eq_getElem cls [] h0]
    exact List.getElem_mem h0
  have hc1 : cls.getD 1 [] ∈ cls := by
    rw [List.getD_eq_getElem cls [] h1]
    exact List.getElem_mem h1
  obtain ⟨p, hp⟩ := List.exists_mem_of_ne_nil _ (hne _ hc0)
  obtain ⟨q, hq⟩ := List.exists_mem_of_ne_nil _ (hne _ hc1)
  refine List.ne_nil_of_mem ((mem_interDists2 cls (dist2 p q)).mpr ?_)
  exact ⟨0, 1, h0, h1, by omega, p, q, hp, hq, rfl⟩

lemma intraDists2_ne_nil (cls : List (List Pt))
    (hpair : ∃ c ∈ cls, 2 ≤ c.length) : intraDists2 cls ≠ [] := by
  obtain ⟨c, hc, hlen⟩ := hpair
  refine List.ne_nil_of_mem ((mem_intraDists2 cls
    (dist2 (c.getD 0 default) (c.getD 1 default))).mpr ?_)
  exact ⟨c, hc, 0, 1, by omega, by omega, by omega, rfl⟩

lemma sqrt_lt_fMAXr {s : ℚ} (h : s < fMAX2) :
    Real.sqrt ((s : ℚ) : ℝ) < ((fMAXq : ℚ) : ℝ) := by
  have hpos : (0 : ℝ) < ((fMAXq : ℚ) : ℝ) := by exact_mod_cast fMAXq_pos
  rw [Real.sqrt_lt' hpos]
  have : ((fMAXq : ℚ) : ℝ) ^ 2 = ((fMAX2 : ℚ) : ℝ) := by
    rw [fMAX2]
    push_cast
    ring
  rw [this]
  exact_mod_cast h

lemma min_intercluster_isLeast (cls : List (List Pt))
    (hne : interDists2 cls ≠ []) (hb : ∀ s ∈ interDists2 cls, s < fMAX2) :
    min_intercluster cls ∈ interDistsR cls ∧
      ∀ d ∈ interDistsR cls, min_intercluster cls ≤ d := by
  have hnonneg : ∀ s ∈ interDists2 cls, 0 ≤ s := by
    intro s hs
    obtain ⟨_, _, _, _, _, p, q, _, _, rfl⟩ := (mem_interDists2 _ _).mp hs
    exact dist2_nonneg p q
  constructor
  · unfold min_intercluster
    rcases foldl_min_eq_or_mem (interDistsR cls) (((fMAXq : ℚ) : ℝ)) with h | h
    · exfalso
      obtain ⟨s0, hs0⟩ := List.exists_mem_of_ne_nil _ hne
      have hd0 : Real.sqrt ((s0 : ℚ) : ℝ) ∈ interDistsR cls :=
        List.mem_map.mpr ⟨s0, hs0, rfl⟩
      have hlt : Real.sqrt ((s0 : ℚ) : ℝ) < ((fMAXq : ℚ) : ℝ) :=
        sqrt_lt_fMAXr (hb s0 hs0)
      have hle := foldl_min_le_mem (interDistsR cls) (((fMAXq : ℚ) : ℝ)) _ hd0
      rw [h] at hle
      linarith
    · exact h
  · intro d hd
    exact foldl_min_le_mem _ _ _ hd

lemma max_intracluster_isGreatest (cls : List (List Pt))
    (hne : intraDists2 cls ≠ []) :
    max_intracluster cls ∈ intraDistsR cls ∧
      ∀ d ∈ intraDistsR cls, d ≤ max_intracluster cls := by
  constructor
  · unfold max_intracluster
    rcases foldl_max_eq_or_mem (intraDistsR cls) (-((fMAXq : ℚ) : ℝ)) with h | h
    · exfalso
      obtain ⟨s0, hs0⟩ := List.exists_mem_of_ne_nil _ hne
      have hd0 : Real.sqrt ((s0 : ℚ) : ℝ) ∈ intraDistsR cls :=
        List.mem_map.mpr ⟨s0, hs0, rfl⟩
      have hge := foldl_max_mem_le (intraDistsR cls) (-((fMAXq : ℚ) : ℝ)) _ hd0
      rw [h] at hge
      have hneg : -((fMAXq : ℚ) : ℝ) < 0 := by
        have : (0 : ℝ) < ((fMAXq : ℚ) : ℝ) := by exact_mod_cast fMAXq_pos
        linarith
      have hnn := Real.sqrt_nonneg (((s0 : ℚ) : ℝ))
      linarith
    · exact h
  · intro d hd
    exact foldl_max_mem_le _ _ _ hd

/-! ### Claim theorems -/

/-- C1: for every finished partition with at least 2 clusters (each cluster
nonempty, some cluster holding at least two rows, and all inter-cluster
squared distances below `f64::MAX` squared — always true of real data),
`dann_index` equals the least Euclidean distance over pairs of points lying
in distinct clusters divided by the greatest Euclidean distance over pairs
of distinct rows of one same cluster. -/
theorem dann_index_eq_min_inter_div_max_intra (cls : List (List Pt))
    (h2 : 2 ≤ cls.length) (hne : ∀ c ∈ cls, c ≠ [])
    (hpair : ∃ c ∈ cls, 2 ≤ c.length)
    (hb : ∀ s ∈ interDists2 cls, s < fMAX2) :
    ∃ a b : ℝ, IsLeast {d | interPairDist cls d} a ∧
      IsGreatest {d | intraPairDist cls d} b ∧ dann_index cls = a / b := by
  refine ⟨min_intercluster cls, max_intracluster cls, ?_, ?_, rfl⟩
  · obtain ⟨hmem, hlb⟩ := min_intercluster_isLeast cls
      (interDists2_ne_nil cls h2 hne) hb
    exact ⟨(mem_interDistsR _ _).mp hmem,
      fun d hd => hlb d ((mem_interDistsR _ _).mpr hd)⟩
  · obtain ⟨hmem, hub⟩ := max_intracluster_isGreatest cls
      (intraDists2_ne_nil cls hpair)
    exact ⟨(mem_intraDistsR _ _).mp hmem,
      fun d hd => hub d ((mem_intraDistsR _ _).mpr hd)⟩

set_option maxRecDepth 100000 in
set_option exponentiation.threshold 2000 in
/-- Witness for C1 at the concrete partition `clsGood`. -/
theorem dann_index_eq_min_inter_div_max_intra_witness :
    ∃ a b : ℝ, IsLeast {d | interPairDist clsGood d} a ∧
      IsGreatest {d | intraPairDist clsGood d} b ∧
      dann_index clsGood = a / b :=
  dann_index_eq_min_inter_div_max_intra clsGood
    (by with_unfolding_all decide) (by with_unfolding_all decide)
    (by with_unfolding_all decide) (by with_unfolding_all decide)

/-- C2: every point is assigned the index of the centroid at minimal
Euclidean distance among the current centroids, and on an exact tie the
lowest index wins: the strict comparison keeps the first minimum found
(under the idealization that all distances are below `f64::MAX`). -/
theorem assign_nearest_centroid (p : Pt) (centers : List Ctr)
    (hne : centers ≠ []) (hb : ∀ c ∈ centers, dist2C p c < fMAX2) :
    tagOf p centers < centers.length ∧
      (∀ j, j < centers.length →
        distRC p (centers.getD (tagOf p centers) default) ≤
          distRC p (centers.getD j default)) ∧
      (∀ j, j < tagOf p centers →
        distRC p (centers.getD (tagOf p centers) default) <
          distRC p (centers.getD j default)) := by
  obtain ⟨c0, hc0⟩ := List.exists_mem_of_ne_nil centers hne
  obtain ⟨i, hi, heq, _, hmin, hfirst⟩ :=
    argminAux_first_argmin p centers 0 fMAX2 0 ⟨c0, hc0, hb c0 hc0⟩
  have htag : tagOf p centers = i := by
    rw [tagOf, heq]
    omega
  refine ⟨by rw [htag]; exact hi, ?_, ?_⟩
  · intro j hj
    rw [htag]
    exact distRC_le_distRC (hmin j hj)
  · intro j hj
    rw [htag] at hj ⊢
    exact distRC_lt_distRC (hfirst j hj)

set_option maxRecDepth 100000 in
set_option exponentiation.threshold 2000 in
/-- Witness for C2 at row `pA` and centroids `assignCenters` (an exact tie
between indices 0 and 1, with the true minimum at index 2). -/
theorem assign_nearest_centroid_witness :
    tagOf pA assignCenters < assignCenters.length ∧
      (∀ j, j < assignCenters.length →
        distRC pA (assignCenters.getD (tagOf pA assignCenters) default) ≤
          distRC pA (assignCenters.getD j default)) ∧
      (∀ j, j < tagOf pA assignCenters →
        distRC pA (assignCenters.getD (tagOf pA assignCenters) default) <
          distRC pA (assignCenters.getD j default)) :=
  assign_nearest_centroid pA assignCenters (by with_unfolding_all decide)
    (by with_unfolding_all decide)

/-- C3 counterexample: `init_centers` given the explicit id list `[5, 0, 0]`
(an absent id, a duplicated id, a count different from any k) raises nothing
and silently returns the single centroid copied from row 0. -/
theorem init_centers_explicit_cex :
    init_centers_explicit samplePts [5, 0, 0] = [[0, 0, 0]] := by
  with_unfolding_all decide

/-- C3 amended: the explicit-id branch of `init_centers` performs no
validation at all — `n_clusters` is never read, duplicate ids in the list
have no effect, absent ids are silently skipped, and the centroids are
exactly the points whose id occurs in the list (one per matching row, in
row order), however many that is. -/
theorem init_centers_explicit_unvalidated (pts : List Pt) (ids : List ℕ) :
    init_centers_explicit pts ids = init_centers_explicit pts ids.dedup ∧
      (init_centers_explicit pts ids).length =
        (pts.filter (fun p => decide (p.n ∈ ids))).length := by
  constructor
  · unfold init_centers_explicit
    congr 1
    refine List.filter_congr ?_
    intro p _
    simp [List.mem_dedup]
  · unfold init_centers_explicit
    exact List.length_map _ _

/-- C4: when `n_clusters` exceeds the id-space size `height`, the rejection
sampling loop of `init_centers` can never collect enough distinct ids — for
every amount of fuel it is still running.  The real program loops forever;
no `InsufficientPointsError` exists in the code. -/
theorem init_random_loop_diverges (rng : ℕ → ℕ) (n_clusters height : ℕ)
    (hk : height < n_clusters) (hrng : ∀ i, rng i < height) :
    ∀ (fuel i : ℕ) (s : Finset ℕ), s ⊆ Finset.range height →
      init_random_loop rng n_clusters fuel i s = none := by
  intro fuel
  induction fuel with
  | zero => intro i s _; rfl
  | succ fuel ih =>
      intro i s hs
      have h1 : s.card ≤ height := by
        have h2 := Finset.card_le_card hs
        simpa using h2
      rw [init_random_loop, if_neg (by omega)]
      refine ih (i + 1) _ ?_
      intro x hx
      rcases Finset.mem_insert.mp hx with h | h
      · exact Finset.mem_range.mpr (h ▸ hrng i)
      · exact hs h

/-- Witness for C4: requesting 2 centroids from a 1-row frame leaves the
loop running after 100 turns. -/
theorem init_random_loop_diverges_witness :
    init_random_loop (fun _ => 0) 2 100 0 ∅ = none :=
  init_random_loop_diverges (fun _ => 0) 2 1 (by omega) (fun _ => Nat.zero_lt_one)
    100 0 ∅ (by simp)

/-- C5 counterexample: on the degenerate partition `clsDeg` (every
intra-cluster distance zero), the `max` accumulator of `dann_index` is `0`
yet the function performs the division anyway and returns the literal
quotient `1 / 0` — no guard, no failure, no sentinel branch. -/
theorem dann_index_zero_divisor_cex :
    max_intracluster clsDeg = 0 ∧ min_intercluster clsDeg = 1 ∧
      dann_index clsDeg = 1 / 0 := by
  have hintra : intraDists2 clsDeg = [0, 0, 0, 0] := by
    with_unfolding_all decide
  have hinter : interDists2 clsDeg = [1, 1, 1, 1, 1, 1, 1, 1] := by
    with_unfolding_all decide
  have hfpos : (0 : ℝ) < ((fMAXq : ℚ) : ℝ) := by exact_mod_cast fMAXq_pos
  have hneg : -((fMAXq : ℚ) : ℝ) < 0 := by linarith
  have hone : (1 : ℝ) < ((fMAXq : ℚ) : ℝ) := by
    have h1 : (1 : ℚ) < fMAXq := by
      unfold fMAXq
      exact_mod_cast (by norm_num : (1 : ℕ) < (2 ^ 53 - 1) * 2 ^ 971)
    exact_mod_cast h1
  have hmax : max_intracluster clsDeg = 0 := by
    unfold max_intracluster intraDistsR
    rw [hintra]
    norm_num [List.foldl, hneg]
  have hmin : min_intercluster clsDeg = 1 := by
    unfold min_intercluster interDistsR
    rw [hinter]
    norm_num [List.foldl, Real.sqrt_one, hone]
  exact ⟨hmax, hmin, by rw [dann_index, hmax, hmin]⟩

/-- C5 amended: `dann_index` contains no division-by-zero guard: whenever
the intra-cluster loops visit at least one pair of rows and every visited
squared distance is zero, the `max` accumulator ends at exactly `0` and the
function still returns the quotient `min / 0` (in IEEE arithmetic, an
infinite or NaN value; never an error). -/
theorem dann_index_no_zero_guard (cls : List (List Pt))
    (hne : intraDists2 cls ≠ [])
    (hzero : ∀ s ∈ intraDists2 cls, s = 0) :
    max_intracluster cls = 0 ∧
      dann_index cls = min_intercluster cls / 0 := by
  have hmax : max_intracluster cls = 0 := by
    obtain ⟨hmem, _⟩ := max_intracluster_isGreatest cls hne
    obtain ⟨s, hs, heq⟩ := List.mem_map.mp hmem
    rw [hzero s hs] at heq
    rw [← heq]
    norm_num
  exact ⟨hmax, by rw [dann_index, hmax]⟩

/-- Witness for the amended C5 at the degenerate partition `clsDeg`. -/
theorem dann_index_no_zero_guard_witness :
    max_intracluster clsDeg = 0 ∧
      dann_index clsDeg = min_intercluster clsDeg / 0 :=
  dann_index_no_zero_guard clsDeg (by with_unfolding_all decide)
    (by with_unfolding_all decide)

/-- C6: when an iteration keeps the cluster count of the previous iteration,
the pair-counting check of the loop equals the cluster count exactly when
the two cluster lists are set-equal (same memberships in any order), and on
set equality the loop returns the current partition. -/
theorem convergence_full_set_equality (pts : List Pt)
    (centers centers₀ : List Ctr)
    (hlen : (partitionStep pts centers).length =
      (partitionStep pts centers₀).length) :
    (countMatches (partitionStep pts centers) (partitionStep pts centers₀) =
        (partitionStep pts centers).length ↔
      (∀ c, c ∈ partitionStep pts centers ↔
        c ∈ partitionStep pts centers₀)) ∧
    ((∀ c, c ∈ partitionStep pts centers ↔ c ∈ partitionStep pts centers₀) →
      evalStep pts centers (partitionStep pts centers₀) =
        StepRes.done (partitionStep pts centers)) := by
  have hiff := countMatches_eq_length_iff _ _
    (partitionStep_nodup pts centers) (partitionStep_nodup pts centers₀) hlen
  refine ⟨hiff, ?_⟩
  intro hset
  have hcount := hiff.mpr hset
  simp only [evalStep]
  split_ifs with h1 h2
  · rfl
  · exact absurd hlen h2
  · rfl

set_option maxRecDepth 100000 in
set_option exponentiation.threshold 2000 in
/-- Witness for C6 at the four-point example: the partition at the updated
centroids is set-equal to the partition at the seed centroids, the count
check fires, and the step returns the current partition. -/
theorem convergence_full_set_equality_witness :
    (countMatches (partitionStep samplePts sampleCenters2)
        (partitionStep samplePts sampleCenters) =
        (partitionStep samplePts sampleCenters2).length ↔
      (∀ c, c ∈ partitionStep samplePts sampleCenters2 ↔
        c ∈ partitionStep samplePts sampleCenters)) ∧
    ((∀ c, c ∈ partitionStep samplePts sampleCenters2 ↔
        c ∈ partitionStep samplePts sampleCenters) →
      evalStep samplePts sampleCenters2
          (partitionStep samplePts sampleCenters) =
        StepRes.done (partitionStep samplePts sampleCenters2)) :=
  convergence_full_set_equality samplePts sampleCenters2 sampleCenters
    (by with_unfolding_all decide)

/-- C7: when an iteration keeps the previous cluster count and the first
cluster of the current partition has the same membership as the previous
iteration's first cluster, the loop returns the current partition — whatever
the remaining clusters are. -/
theorem convergence_first_cluster_shortcut (pts : List Pt)
    (centers : List Ctr) (last : List (List Pt))
    (hlen : (partitionStep pts centers).length = last.length)
    (hhead : (partitionStep pts centers).head? = last.head?) :
    evalStep pts centers last = StepRes.done (partitionStep pts centers) := by
  simp only [evalStep]
  split_ifs with h1 h2 h3
  · rfl
  · exact absurd hlen h2
  · rfl
  · rfl

set_option maxRecDepth 100000 in
set_option exponentiation.threshold 2000 in
/-- Witness for C7: against the previous clusters `lastAlt`, whose second
cluster differs from the current partition's, the step still returns the
current partition because the first clusters agree. -/
theorem convergence_first_cluster_shortcut_witness :
    evalStep samplePts sampleCenters lastAlt =
      StepRes.done (partitionStep samplePts sampleCenters) :=
  convergence_first_cluster_shortcut samplePts sampleCenters lastAlt
    (by with_unfolding_all decide) (by with_unfolding_all decide)

/-- C8: any partition returned by the engine loop covers the input exactly:
the concatenation of its clusters is a permutation of the input rows, and
every input row lies in exactly one cluster. -/
theorem eval_partition_exact (pts : List Pt) (fuel : ℕ) (centers : List Ctr)
    (last P : List (List Pt)) (h : evalLoop pts fuel centers last = some P) :
    (P.flatten).Perm pts ∧ ∀ p ∈ pts, ∃! c, c ∈ P ∧ p ∈ c := by
  obtain ⟨cs, rfl⟩ := evalLoop_some_eq_partitionStep pts fuel centers last P h
  exact ⟨partitionStep_join_perm pts cs,
    fun p hp => partitionStep_exists_unique pts cs p hp⟩

set_option maxRecDepth 100000 in
set_option exponentiation.threshold 2000 in
/-- Witness for C8: the four-point run converges to two clusters that
together cover the input exactly. -/
theorem eval_partition_exact_witness :
    (([[pA, pB], [pC, pD]] : List (List Pt)).flatten).Perm samplePts ∧
      ∀ p ∈ samplePts, ∃! c, c ∈ [[pA, pB], [pC, pD]] ∧ p ∈ c :=
  eval_partition_exact samplePts 3 sampleCenters [samplePts]
    [[pA, pB], [pC, pD]] (by with_unfolding_all decide)

/-- C9: the cluster count never increases from one iteration to the next:
one partition step starting from the previous iteration's clusters produces
at most as many clusters as there are centroids, and the centroid update
produces exactly one centroid per previous cluster. -/
theorem cluster_count_nonincreasing (pts : List Pt)
    (prev : List (List Pt)) (h : prev ≠ []) :
    (partitionStep pts (eval_centers prev)).length ≤
        (eval_centers prev).length ∧
      (eval_centers prev).length = prev.length := by
  have hne : eval_centers prev ≠ [] := by
    intro hnil
    exact h (List.map_eq_nil_iff.mp hnil)
  exact ⟨partitionStep_length_le pts _ hne, by simp [eval_centers]⟩

set_option maxRecDepth 100000 in
set_option exponentiation.threshold 2000 in
/-- Witness for C9 at a concrete two-cluster previous iteration. -/
theorem cluster_count_nonincreasing_witness :
    (partitionStep samplePts (eval_centers [[pA], [pB]])).length ≤
        (eval_centers [[pA], [pB]]).length ∧
      (eval_centers [[pA], [pB]]).length =
        ([[pA], [pB]] : List (List Pt)).length :=
  cluster_count_nonincreasing samplePts [[pA], [pB]]
    (by with_unfolding_all decide)

/-- C10: every cluster materialized by the partition step holds at least one
row, so the `sum / len` denominators of `eval_centers` are never zero in any
reachable engine state. -/
theorem partition_cluster_nonempty (pts : List Pt) (centers : List Ctr)
    (c : List Pt) (hc : c ∈ partitionStep pts centers) :
    c ≠ [] ∧ ((c.length : ℚ) ≠ 0) := by
  have h1 := partitionStep_ne_nil pts centers c hc
  refine ⟨h1, ?_⟩
  have h2 : 0 < c.length := List.length_pos.mpr h1
  exact Nat.cast_ne_zero.mpr (Nat.pos_iff_ne_zero.mp h2)

set_option maxRecDepth 100000 in
set_option exponentiation.threshold 2000 in
/-- Witness for C10 at the first cluster of the four-point example. -/
theorem partition_cluster_nonempty_witness :
    ([pA, pB] : List Pt) ≠ [] ∧ ((([pA, pB] : List Pt).length : ℚ) ≠ 0) :=
  partition_cluster_nonempty samplePts sampleCenters [pA, pB]
    (by with_unfolding_all decide)
